import Mathlib

/-!
Verification of the herohirehero repository: a shallow embedding of the
frontend submission logic (`src/frontend/src/App.js`) and of the
network-hunt crawl / enrichment engine described by the repository's
design documents (`src/network_hunt/PROPOSAL.md`, `src/network_hunt/README.md`)
and its SQL schemas.
-/

namespace HeroApp

/-- The keys of the three submission questions (`questions` in App.js). -/
inductive QKey
  | grit
  | badass
  | vision
deriving DecidableEq, Repr

/-- The `answers` state object of App.js: one string per question key. -/
structure Answers where
  grit : String
  badass : String
  vision : String
deriving DecidableEq, Repr

/-- `answers[q.key]` lookup. -/
def Answers.get : Answers → QKey → String
  | a, .grit => a.grit
  | a, .badass => a.badass
  | a, .vision => a.vision

/-- The `userType` state of App.js: 'hiring' or 'joining'. -/
inductive UserType
  | hiring
  | joining
deriving DecidableEq, Repr

/-- Drop leading whitespace characters from a character list. -/
def dropLeadingWs : List Char → List Char
  | [] => []
  | c :: cs => if c.isWhitespace then dropLeadingWs cs else c :: cs

/-- JavaScript `String.prototype.trim`: remove leading and trailing
whitespace (trailing via reversal). -/
def jsTrim (s : String) : String :=
  String.mk ((dropLeadingWs ((dropLeadingWs s.data).reverse)).reverse)

/-- JavaScript `String.prototype.includes` for a single-character needle,
as used by `submitReminderEmail` with '@'. -/
def jsIncludes (s : String) (c : Char) : Bool := s.data.contains c

/-- Maximal non-whitespace runs: the recursion carries whether the previous
character belonged to a word. -/
def countWordsAux : List Char → Bool → Nat
  | [], _ => 0
  | c :: cs, inWord =>
    if c.isWhitespace then countWordsAux cs false
    else (if inWord then 0 else 1) + countWordsAux cs true

/-- `wordCount` from App.js:
`text?.trim() ? text.trim().split(/\s+/).length : 0`.
On a whitespace-only string this is 0; otherwise splitting the trimmed
string at `/\s+/` yields exactly its maximal non-whitespace runs, so the
count is the number of such runs. -/
def wordCount (text : String) : Nat := countWordsAux text.data false

/-- `validate` from App.js (lines 270-283), the question loop unrolled in
its source order (grit, badass, vision; per question the emptiness check
precedes the word bound), then the `userType` check.  Returns the first
error message, or `none` when the submission is valid. -/
def validate (answers : Answers) (userType : Option UserType) : Option String :=
  if jsTrim answers.grit = "" then some "Please answer all questions."
  else if 140 < wordCount answers.grit then some "Please keep each answer under 140 words."
  else if jsTrim answers.badass = "" then some "Please answer all questions."
  else if 140 < wordCount answers.badass then some "Please keep each answer under 140 words."
  else if jsTrim answers.vision = "" then some "Please answer all questions."
  else if 140 < wordCount answers.vision then some "Please keep each answer under 140 words."
  else if userType = none then some "Please select whether you want to hire or join."
  else none

/-- The externally visible writes `submitAnswers` can perform. -/
inductive SubmitWrite
  | localStoragePending (answers : Answers) (ut : Option UserType)
  | profilesUpsert (answers : Answers) (ut : Option UserType)
deriving DecidableEq, Repr

/-- Result state of one `submitAnswers` call: the value passed to
`setErrorMsg` (if called), the writes performed, and the UI transitions. -/
structure SubmitResult where
  errorMsg : Option String
  writes : List SubmitWrite
  showLoginModal : Bool
  step : Nat
deriving DecidableEq, Repr

/-- `submitAnswers` from App.js (lines 285-319): validate; on error set the
message and return; otherwise clear the message and either stash the
submission in localStorage (logged out) or upsert the profile row. -/
def submitAnswers (answers : Answers) (userType : Option UserType)
    (loggedIn : Bool) (upsertError : Option String) : SubmitResult :=
  match validate answers userType with
  | some err => { errorMsg := some err, writes := [], showLoginModal := false, step := 1 }
  | none =>
    if loggedIn then
      match upsertError with
      | some e =>
        { errorMsg := some ("Failed to save: " ++ e)
          writes := [.profilesUpsert answers userType]
          showLoginModal := false, step := 1 }
      | none =>
        { errorMsg := some ""
          writes := [.profilesUpsert answers userType]
          showLoginModal := false, step := 2 }
    else
      { errorMsg := some ""
        writes := [.localStoragePending answers userType]
        showLoginModal := true, step := 1 }

/-- The piece of component state touched by `submitReminderEmail`. -/
structure EmailState where
  errorMsg : String
  emailSubmitted : Bool
deriving DecidableEq, Repr

/-- `submitReminderEmail` from App.js (lines 404-422).  The second component
records whether the `reminder_emails` insert was attempted.  The `catch`
branch deliberately mirrors the success branch ("just show success anyway"). -/
def submitReminderEmail (reminderEmail : String) (insertThrows : Bool)
    (st : EmailState) : EmailState × Bool :=
  if jsTrim reminderEmail = "" || !(jsIncludes reminderEmail '@') then
    ({ st with errorMsg := "Please enter a valid email address." }, false)
  else if insertThrows then
    ({ st with emailSubmitted := true, errorMsg := "" }, true)
  else
    ({ st with emailSubmitted := true, errorMsg := "" }, true)

/-- `PAGE_SIZE` from App.js line 30. -/
def PAGE_SIZE : Nat := 8

/-- A row of the `personality_character` table (fields beyond the name are
irrelevant to pagination and abstracted to an id). -/
structure Character where
  id : Nat
  name : String
deriving DecidableEq, Repr

/-- The supabase request issued by `fetchCharacters`: a half-open row window
`[lo, hi]` (both inclusive, as in `.range(from, to)`) and an ordering key. -/
structure CharQuery where
  lo : Nat
  hi : Nat
  orderBy : String
deriving DecidableEq, Repr

/-- The query built by `fetchCharacters(page)` in App.js (lines 134-149):
`from = page * PAGE_SIZE`, `to = from + PAGE_SIZE - 1`, `.order('name')`. -/
def fetchCharactersQuery (page : Nat) : CharQuery :=
  { lo := page * PAGE_SIZE
    hi := page * PAGE_SIZE + PAGE_SIZE - 1
    orderBy := "name" }

/-- Server semantics of `.range(lo, hi)` over the table already ordered by
the requested key: the rows at offsets `lo` through `hi` inclusive. -/
def runQuery (orderedRows : List Character) (q : CharQuery) : List Character :=
  (orderedRows.drop q.lo).take (q.hi + 1 - q.lo)

/-- `totalPages = Math.ceil(totalCount / PAGE_SIZE)` from App.js line 401,
as exact natural-number ceiling division. -/
def totalPages (totalCount : Nat) : Nat :=
  (totalCount + PAGE_SIZE - 1) / PAGE_SIZE

end HeroApp

namespace NetworkHunt

/-- Task status values of the `enrichment_queue` table
(PROPOSAL.md section 3.7: 'pending' | 'processing' | 'completed' | 'failed'). -/
inductive TaskStatus
  | pending
  | processing
  | completed
  | failed
deriving DecidableEq, Repr

/-- A row of `enrichment_queue` (PROPOSAL.md section 3.7): target person,
channel (`task_type`), status, attempt count, priority. -/
structure Task where
  personId : Nat
  channel : Nat
  status : TaskStatus
  attempts : Nat
  priority : Int
deriving DecidableEq, Repr

/-- A task is active when its status is pending or processing. -/
def Task.isActive (t : Task) : Bool :=
  match t.status with
  | .pending => true
  | .processing => true
  | _ => false

/-- Whether a task is an active task for the pair `(p, c)`. -/
def Task.activeFor (t : Task) (p c : Nat) : Bool :=
  decide (t.personId = p) && decide (t.channel = c) && t.isActive

/-- Number of active queue rows for the pair `(p, c)`. -/
def activeCount (q : List Task) (p c : Nat) : Nat :=
  q.countP (fun t => t.activeFor p c)

/-- Modelled from the spec: `TaskQueue.enqueue` (section 4.3); the enqueue
implementation is absent from src/, only the `enrichment_queue` schema is.
If a pending/processing task already exists for `(person, channel)` the call
is a `DuplicateActiveTask` no-op; otherwise a fresh pending task is added. -/
def enqueue (q : List Task) (p c : Nat) (prio : Int) : List Task :=
  if q.any (fun t => t.activeFor p c) then q
  else { personId := p, channel := c, status := .pending, attempts := 0,
         priority := prio } :: q

/-- Modelled from the spec: `TaskQueue.claim` status transition (section 4.3);
the claim implementation is absent from src/.  The task at index `i`
moves pending -> processing. -/
def claimAt (q : List Task) (i : Nat) : List Task :=
  match q.get? i with
  | some t => if t.status = .pending then q.set i { t with status := .processing } else q
  | none => q

/-- Modelled from the spec: `TaskQueue.complete` (section 4.3); the
implementation is absent from src/.  processing -> completed. -/
def completeAt (q : List Task) (i : Nat) : List Task :=
  match q.get? i with
  | some t => if t.status = .processing then q.set i { t with status := .completed } else q
  | none => q

/-- Modelled from the spec: `TaskQueue.fail` (section 4.3); the
implementation is absent from src/.  processing -> pending while the attempt
ceiling is not reached, else the terminal failure status. -/
def failAt (q : List Task) (i : Nat) (ceiling : Nat) : List Task :=
  match q.get? i with
  | some t =>
    if t.status = .processing then
      q.set i { t with attempts := t.attempts + 1,
                       status := if t.attempts + 1 < ceiling then .pending else .failed }
    else q
  | none => q

/-- The operations that mutate the enrichment queue. -/
inductive QueueOp
  | enq (p c : Nat) (prio : Int)
  | claim (i : Nat)
  | complete (i : Nat)
  | fail (i : Nat) (ceiling : Nat)
deriving DecidableEq, Repr

/-- One queue transition. -/
def applyOp (q : List Task) : QueueOp → List Task
  | .enq p c prio => enqueue q p c prio
  | .claim i => claimAt q i
  | .complete i => completeAt q i
  | .fail i ceiling => failAt q i ceiling

/-- The queue state reached by a sequence of operations from the empty queue. -/
def runQueue (ops : List QueueOp) : List Task :=
  ops.foldl applyOp []

/-- Modelled from the spec: the EnrichmentOrchestrator watermark rule on task
completion (section 4.4); the orchestrator implementation is absent from src/.
The channel watermark becomes
`max(existing watermark, latest content timestamp, task start time)`;
a null input acts as an absent bound. -/
def advanceWatermark (w : Option Int) (latestContent : Option Int)
    (taskStart : Int) : Option Int :=
  some (max (max (w.getD taskStart) (latestContent.getD taskStart)) taskStart)

/-- The data delivered by one task completion: the latest content timestamp
observed (none when the search found nothing) and the task start time. -/
structure Completion where
  latestContent : Option Int
  taskStart : Int
deriving DecidableEq, Repr

/-- Watermark after a sequence of task completions. -/
def runCompletions (w : Option Int) (cs : List Completion) : Option Int :=
  cs.foldl (fun v c => advanceWatermark v c.latestContent c.taskStart) w

/-- Order on optional timestamps: a null watermark precedes everything,
and a non-null watermark never regresses to null. -/
def wmLe : Option Int → Option Int → Prop
  | none, _ => True
  | some _, none => False
  | some a, some b => a ≤ b

instance (a b : Option Int) : Decidable (wmLe a b) := by
  unfold wmLe
  cases a with
  | none => exact inferInstanceAs (Decidable True)
  | some x =>
    cases b with
    | none => exact inferInstanceAs (Decidable False)
    | some y => exact inferInstanceAs (Decidable (x ≤ y))

/-- A row of `person_knowledge` (PROPOSAL.md section 3.5); the content
payload is abstracted, the dedup key `(person_id, content_hash)` is kept. -/
structure Fragment where
  personId : Nat
  contentHash : Nat
  sourceType : Nat
  content : Nat
deriving DecidableEq, Repr

/-- Result of a knowledge-store put. -/
inductive PutResult
  | Inserted
  | Duplicate
deriving DecidableEq, Repr

/-- Whether a stored fragment carries the dedup key `(p, h)`. -/
def Fragment.hasKey (f : Fragment) (p h : Nat) : Bool :=
  decide (f.personId = p) && decide (f.contentHash = h)

/-- Modelled from the spec: `KnowledgeStore.put` (section 4.5), backed by the
`UNIQUE(person_id, content_hash)` constraint of the `person_knowledge`
schema; the store implementation is absent from src/.  A duplicate key is
silently absorbed. -/
def put (store : List Fragment) (f : Fragment) : PutResult × List Fragment :=
  if store.any (fun g => g.hasKey f.personId f.contentHash) then (.Duplicate, store)
  else (.Inserted, f :: store)

/-- Number of stored fragments with dedup key `(p, h)`. -/
def keyCount (store : List Fragment) (p h : Nat) : Nat :=
  store.countP (fun g => g.hasKey p h)

/-- The store reached by a sequence of puts from the empty store. -/
def runPuts (fs : List Fragment) : List Fragment :=
  fs.foldl (fun s f => (put s f).2) []

/-- A `persons` row restricted to its identity keys (the four UNIQUE columns
`ph_id`, `twitter`, `linkedin`, `github` of the schema in App.js lines
905-908); key values are abstracted to naturals, `name` stands for the
remaining non-key payload. -/
structure Person where
  name : Nat
  ph_id : Option Nat
  twitter : Option Nat
  linkedin : Option Nat
  github : Option Nat
deriving DecidableEq, Repr

/-- Two identity-key values collide exactly when both are non-null and equal. -/
def keyMatch : Option Nat → Option Nat → Bool
  | some a, some b => decide (a = b)
  | _, _ => false

/-- Two person records share an identity key when some key field collides. -/
def sharesKey (a b : Person) : Bool :=
  keyMatch a.ph_id b.ph_id || keyMatch a.twitter b.twitter ||
  keyMatch a.linkedin b.linkedin || keyMatch a.github b.github

/-- Index of the first list element satisfying the predicate. -/
def findIdxOpt (f : Person → Bool) : List Person → Option Nat
  | [] => none
  | p :: rest => if f p then some 0 else (findIdxOpt f rest).map (· + 1)

/-- Modelled from the spec: EntityResolver matching (section 4.2); the
resolver implementation is absent from src/.  Candidate keys are compared
against stored persons in the fixed priority order platform id, twitter,
linkedin, github; the first non-null match wins. -/
def findMatch (c : Person) (s : List Person) : Option Nat :=
  match findIdxOpt (fun p => keyMatch c.ph_id p.ph_id) s with
  | some i => some i
  | none =>
    match findIdxOpt (fun p => keyMatch c.twitter p.twitter) s with
    | some i => some i
    | none =>
      match findIdxOpt (fun p => keyMatch c.linkedin p.linkedin) s with
      | some i => some i
      | none => findIdxOpt (fun p => keyMatch c.github p.github) s

/-- Modelled from the spec: EntityResolver merge (section 4.2); the resolver
implementation is absent from src/.  Never overwrite a non-null field with
null; last write wins for conflicting non-null fields, so a non-null
candidate field replaces the stored one. -/
def mergeInto (p c : Person) : Person :=
  { name := c.name
    ph_id := c.ph_id.orElse fun _ => p.ph_id
    twitter := c.twitter.orElse fun _ => p.twitter
    linkedin := c.linkedin.orElse fun _ => p.linkedin
    github := c.github.orElse fun _ => p.github }

/-- Modelled from the spec: `EntityResolver.resolve` (section 4.2); the
resolver implementation is absent from src/.  On match, merge the candidate
into the matched record; otherwise create a new record. -/
def resolve (c : Person) (s : List Person) : List Person :=
  match findMatch c s with
  | some i =>
    match s.get? i with
    | some p => s.set i (mergeInto p c)
    | none => s
  | none => s ++ [c]

/-- Boolean form of the uniqueness invariant: no two records of the list
share a non-null identity key. -/
def pairwiseNoShare : List Person → Bool
  | [] => true
  | p :: rest => rest.all (fun q => !(sharesKey p q)) && pairwiseNoShare rest

/-- The Person uniqueness invariant: no two records share a non-null
identity key. -/
def Uniq (s : List Person) : Prop := pairwiseNoShare s = true

instance (s : List Person) : Decidable (Uniq s) := by
  unfold Uniq; infer_instance

/-- Mode-scoped cursors of a `data_source_state` row (App.js schema lines
883-890): `oldest_date`, `newest_date`, `last_cursor`; dates are integers,
null when never set. -/
structure CrawlCursors where
  oldestDate : Option Int
  newestDate : Option Int
  lastCursor : Nat
deriving DecidableEq, Repr

/-- One successful page commit, in either crawl mode, carrying the extreme
date observed on the page and the next pagination cursor. -/
inductive PageCommit
  | backfill (pageOldest : Int) (cursor : Nat)
  | incremental (pageNewest : Int) (cursor : Nat)
deriving DecidableEq, Repr

/-- Modelled from the spec: `CrawlStateManager.commitPage` (section 4.1); the
manager implementation is absent from src/.  A backfill page can only move
`oldest_date` further into the past, an incremental page can only move
`newest_date` forward; the opposite cursor is untouched. -/
def commitPage (st : CrawlCursors) : PageCommit → CrawlCursors
  | .backfill d cur =>
    { st with oldestDate := some (min (st.oldestDate.getD d) d), lastCursor := cur }
  | .incremental d cur =>
    { st with newestDate := some (max (st.newestDate.getD d) d), lastCursor := cur }

/-- Crawl state after a sequence of successful page commits. -/
def runCommits (st : CrawlCursors) (ps : List PageCommit) : CrawlCursors :=
  ps.foldl commitPage st

/-- `b` refines `a` downward: wherever `a` is set, `b` is set and not larger. -/
def cursorDescends (a b : Option Int) : Prop :=
  ∀ x, a = some x → ∃ y, b = some y ∧ y ≤ x

/-- `b` refines `a` upward: wherever `a` is set, `b` is set and not smaller. -/
def cursorAscends (a b : Option Int) : Prop :=
  ∀ x, a = some x → ∃ y, b = some y ∧ x ≤ y

/-- `a` is a lower bound refinement of `b`: wherever `b` is set, `a` is set
and not larger.  Used to say a cursor only moved into the past. -/
def cursorLe (a b : Option Int) : Prop :=
  ∀ y, b = some y → ∃ x, a = some x ∧ x ≤ y

/-- The status domain of the `data_source_state.status` CHECK constraint
(App.js schema line 888). -/
def allowedStatus (s : String) : Prop :=
  s = "active" ∨ s = "paused" ∨ s = "completed"

/-- The events that make the crawl-state manager change a source's status. -/
inductive StatusEvent
  | backfillExhausted
  | incrementalReachedNow
  | operatorPause
  | operatorResume
deriving DecidableEq, Repr

/-- Modelled from the spec: CrawlStateManager status transitions
(section 4.1); the manager implementation is absent from src/.  Backfill
exhaustion completes the source; incremental mode reaching "now" leaves the
source active (idle, re-armed on the next invocation); pausing and resuming
are operator actions. -/
def nextStatus (_s : String) : StatusEvent → String
  | .backfillExhausted => "completed"
  | .incrementalReachedNow => "active"
  | .operatorPause => "paused"
  | .operatorResume => "active"

/-- Status after a sequence of manager transitions. -/
def runStatus (s : String) (es : List StatusEvent) : String :=
  es.foldl nextStatus s

/-- The aggregated signals the importance score reads
(PROPOSAL.md section 5.1). -/
structure Signals where
  makerPostsCount : Nat
  totalVotesReceived : Nat
  avgProductRating : ℚ
  hasTwitter : Bool
  recentActivity : Bool
deriving DecidableEq, Repr

/-- The `importance_score` formula of PROPOSAL.md section 5.1:
`maker_posts_count * 10 + total_votes_received * 0.1 + avg_product_rating * 20
 + (has_twitter ? 5 : 0) + (recent_activity ? 10 : 0)`,
with the decimal coefficients taken exactly. -/
def importance_score (s : Signals) : ℚ :=
  (s.makerPostsCount : ℚ) * 10 + (s.totalVotesReceived : ℚ) * (1 / 10) +
    s.avgProductRating * 20 +
    (if s.hasTwitter then 5 else 0) + (if s.recentActivity then 10 else 0)

/-- A `persons` row as seen by the scorer: its aggregated signals plus
non-signal payload (name, email). -/
structure PersonRecord where
  name : Nat
  email : Option Nat
  signals : Signals
deriving DecidableEq, Repr

/-- The score of a person record is the score of its signals. -/
def scoreOf (p : PersonRecord) : ℚ := importance_score p.signals

/-- The `--min-score` selection of the enrich command (README.md "enrich
--min-score 50 --limit 10", PROPOSAL.md section 10): only persons whose
importance score reaches the threshold are enriched at all. -/
def minScoreSelect (minScore : ℚ) (ps : List PersonRecord) : List PersonRecord :=
  ps.filter (fun p => decide (minScore ≤ scoreOf p))

end NetworkHunt


namespace HeroApp

theorem validate_none_iff (a : Answers) (ut : Option UserType) :
    validate a ut = none ↔
      (∀ k, jsTrim (a.get k) ≠ "" ∧ wordCount (a.get k) ≤ 140) ∧ ut ≠ none := by
  unfold validate
  constructor
  · intro h
    split_ifs at h with h1 h2 h3 h4 h5 h6 h7 <;> try exact Option.noConfusion h
    refine ⟨fun k => ?_, h7⟩
    cases k <;> simp only [Answers.get] <;> exact ⟨by assumption, by omega⟩
  · rintro ⟨hk, hut⟩
    split_ifs with h1 h2 h3 h4 h5 h6
    · exact absurd h1 (by simpa only [Answers.get] using (hk QKey.grit).1)
    · exfalso
      have h := (hk QKey.grit).2
      simp only [Answers.get] at h
      omega
    · exact absurd h3 (by simpa only [Answers.get] using (hk QKey.badass).1)
    · exfalso
      have h := (hk QKey.badass).2
      simp only [Answers.get] at h
      omega
    · exact absurd h5 (by simpa only [Answers.get] using (hk QKey.vision).1)
    · exfalso
      have h := (hk QKey.vision).2
      simp only [Answers.get] at h
      omega
    · rfl

theorem validate_some_ne_empty (a : Answers) (ut : Option UserType) (e : String)
    (h : validate a ut = some e) : e ≠ "" := by
  unfold validate at h
  split_ifs at h <;> (cases h; decide)

/-- C8: when some answer is blank after trimming, some answer exceeds 140
whitespace-separated words, or no user type is selected, `submitAnswers`
sets a non-empty error message and performs no write (neither the profiles
upsert nor the pendingSubmission localStorage write); and the write path
only ever runs when `validate` passes. -/
theorem submitAnswers_invalid_blocks_writes
    (answers : Answers) (ut : Option UserType) (loggedIn : Bool)
    (upsertError : Option String)
    (h : (∃ k, jsTrim (answers.get k) = "") ∨
         (∃ k, 140 < wordCount (answers.get k)) ∨ ut = none) :
    ((∃ e, (submitAnswers answers ut loggedIn upsertError).errorMsg = some e ∧ e ≠ "")
      ∧ (submitAnswers answers ut loggedIn upsertError).writes = [])
    ∧ (∀ (a2 : Answers) (u2 : Option UserType) (l2 : Bool) (e2 : Option String),
        (submitAnswers a2 u2 l2 e2).writes ≠ [] → validate a2 u2 = none) := by
  constructor
  · have hsome : ∃ e, validate answers ut = some e := by
      cases hval : validate answers ut with
      | some e => exact ⟨e, rfl⟩
      | none =>
        exfalso
        obtain ⟨hk, hut⟩ := (validate_none_iff answers ut).mp hval
        rcases h with ⟨k, hk1⟩ | ⟨k, hk1⟩ | h3
        · exact (hk k).1 hk1
        · have := (hk k).2
          omega
        · exact hut h3
    obtain ⟨e, he⟩ := hsome
    have hne := validate_some_ne_empty answers ut e he
    unfold submitAnswers
    rw [he]
    exact ⟨⟨e, rfl, hne⟩, rfl⟩
  · intro a2 u2 l2 e2 hw
    cases hval : validate a2 u2 with
    | none => rfl
    | some e =>
      exfalso
      apply hw
      unfold submitAnswers
      rw [hval]

/-- Witness for C8 at a concrete invalid submission (blank grit answer). -/
theorem submitAnswers_invalid_blocks_writes_witness :
    ((∃ e, (submitAnswers ⟨" ", "b", "c"⟩ (some .hiring) true none).errorMsg = some e ∧ e ≠ "")
      ∧ (submitAnswers ⟨" ", "b", "c"⟩ (some .hiring) true none).writes = [])
    ∧ (∀ (a2 : Answers) (u2 : Option UserType) (l2 : Bool) (e2 : Option String),
        (submitAnswers a2 u2 l2 e2).writes ≠ [] → validate a2 u2 = none) :=
  submitAnswers_invalid_blocks_writes ⟨" ", "b", "c"⟩ (some .hiring) true none
    (Or.inl ⟨.grit, by decide⟩)

/-- C9: for any input that is non-empty after trimming and contains '@',
`submitReminderEmail` reports success (emailSubmitted true, error cleared)
identically whether or not the reminder_emails insert throws. -/
theorem submitReminderEmail_ignores_insert_failure (email : String)
    (st : EmailState) (h : jsTrim email ≠ "" ∧ jsIncludes email '@' = true) :
    submitReminderEmail email true st = submitReminderEmail email false st
    ∧ (submitReminderEmail email true st).1.emailSubmitted = true
    ∧ (submitReminderEmail email true st).1.errorMsg = ""
    ∧ (submitReminderEmail email true st).2 = true := by
  obtain ⟨h1, h2⟩ := h
  unfold submitReminderEmail
  simp [h1, h2]

/-- Witness for C9 at the concrete address "a@b". -/
theorem submitReminderEmail_ignores_insert_failure_witness :
    submitReminderEmail "a@b" true ⟨"old error", false⟩
      = submitReminderEmail "a@b" false ⟨"old error", false⟩
    ∧ (submitReminderEmail "a@b" true ⟨"old error", false⟩).1.emailSubmitted = true
    ∧ (submitReminderEmail "a@b" true ⟨"old error", false⟩).1.errorMsg = ""
    ∧ (submitReminderEmail "a@b" true ⟨"old error", false⟩).2 = true :=
  submitReminderEmail_ignores_insert_failure "a@b" ⟨"old error", false⟩
    ⟨by decide, by decide⟩

end HeroApp

namespace HeroApp

/-- C10: `fetchCharacters(p)` requests exactly the rows at offsets `p*8`
through `p*8+7` of the `personality_character` table ordered by name
(PAGE_SIZE = 8), and the pagination UI reports `ceil(totalCount / 8)`
total pages. -/
theorem fetchCharacters_pagination (p : Nat) :
    fetchCharactersQuery p = { lo := p * 8, hi := p * 8 + 7, orderBy := "name" }
    ∧ (∀ (rows : List Character) (i : Nat), i < 8 →
        (runQuery rows (fetchCharactersQuery p))[i]? = rows[p * 8 + i]?)
    ∧ (∀ rows : List Character, (runQuery rows (fetchCharactersQuery p)).length ≤ 8)
    ∧ (∀ n : Nat, (totalPages n : ℤ) = Int.ceil ((n : ℚ) / 8)) := by
  refine ⟨?_, ?_, ?_, ?_⟩
  · simp [fetchCharactersQuery, PAGE_SIZE]
  · intro rows i hi
    simp only [runQuery, fetchCharactersQuery, PAGE_SIZE]
    rw [List.getElem?_take_of_lt (by omega), List.getElem?_drop]
  · intro rows
    simp [runQuery, fetchCharactersQuery, PAGE_SIZE, List.length_take]
    omega
  · intro n
    set q : Nat := (n + 7) / 8 with hq
    have hq1 : n ≤ 8 * q := by omega
    have hq2 : 8 * q ≤ n + 7 := by omega
    have htp : totalPages n = q := by
      simp only [totalPages, PAGE_SIZE]
      omega
    have c1 : (n : ℚ) ≤ 8 * (q : ℚ) := by exact_mod_cast hq1
    have c2 : 8 * (q : ℚ) ≤ (n : ℚ) + 7 := by exact_mod_cast hq2
    rw [htp, eq_comm]
    apply Int.ceil_eq_iff.mpr
    constructor
    · rw [lt_div_iff (by norm_num : (0:ℚ) < 8)]
      push_cast
      linarith
    · rw [div_le_iff (by norm_num : (0:ℚ) < 8)]
      push_cast
      linarith

/-- Witness for C10 at page 1, a one-row table, offset 0 and count 20. -/
theorem fetchCharacters_pagination_witness :
    fetchCharactersQuery 1 = { lo := 1 * 8, hi := 1 * 8 + 7, orderBy := "name" }
    ∧ (runQuery [⟨0, "a"⟩] (fetchCharactersQuery 1))[0]?
        = ([⟨0, "a"⟩] : List Character)[1 * 8 + 0]?
    ∧ (runQuery [⟨0, "a"⟩] (fetchCharactersQuery 1)).length ≤ 8
    ∧ (totalPages 20 : ℤ) = Int.ceil ((20 : ℚ) / 8) :=
  ⟨(fetchCharacters_pagination 1).1,
   (fetchCharacters_pagination 1).2.1 [⟨0, "a"⟩] 0 (by omega),
   (fetchCharacters_pagination 1).2.2.1 [⟨0, "a"⟩],
   (fetchCharacters_pagination 1).2.2.2 20⟩

end HeroApp

namespace NetworkHunt

theorem wmLe_refl (a : Option Int) : wmLe a a := by
  cases a <;> simp [wmLe]

theorem wmLe_trans {a b c : Option Int} (h1 : wmLe a b) (h2 : wmLe b c) :
    wmLe a c := by
  cases a <;> cases b <;> cases c <;> simp_all [wmLe] <;> omega

theorem wmLe_advance (w lc : Option Int) (ts : Int) :
    wmLe w (advanceWatermark w lc ts) := by
  cases w <;> cases lc <;> simp [wmLe, advanceWatermark, le_max_iff]

theorem wmLe_advance_content (w lc : Option Int) (ts : Int) :
    wmLe lc (advanceWatermark w lc ts) := by
  cases w <;> cases lc <;> simp [wmLe, advanceWatermark, le_max_iff]

theorem wmLe_advance_start (w lc : Option Int) (ts : Int) :
    wmLe (some ts) (advanceWatermark w lc ts) := by
  cases w <;> cases lc <;> simp [wmLe, advanceWatermark, le_max_iff]

theorem advance_least_ub (w lc : Option Int) (ts : Int) (u : Option Int)
    (h1 : wmLe w u) (h2 : wmLe lc u) (h3 : wmLe (some ts) u) :
    wmLe (advanceWatermark w lc ts) u := by
  cases u with
  | none => exact absurd h3 (by simp [wmLe])
  | some uv => cases w <;> cases lc <;> simp_all [wmLe, advanceWatermark, max_le_iff]

theorem wmLe_runCompletions (w : Option Int) (cs : List Completion) :
    wmLe w (runCompletions w cs) := by
  induction cs generalizing w with
  | nil => exact wmLe_refl w
  | cons c cs ih =>
    exact wmLe_trans (wmLe_advance w c.latestContent c.taskStart)
      (ih (advanceWatermark w c.latestContent c.taskStart))

/-- C2: on task completion the channel watermark becomes the least upper
bound (the max) of the existing watermark, the latest content timestamp and
the task start time; consequently over any sequence of task completions —
any interleaving, including out-of-order completion of overlapping tasks —
the watermark never decreases. -/
theorem watermark_max_update_and_monotone (w : Option Int) (c : Completion)
    (cs ds : List Completion) :
    wmLe w (advanceWatermark w c.latestContent c.taskStart)
    ∧ wmLe c.latestContent (advanceWatermark w c.latestContent c.taskStart)
    ∧ wmLe (some c.taskStart) (advanceWatermark w c.latestContent c.taskStart)
    ∧ (∀ u, wmLe w u → wmLe c.latestContent u → wmLe (some c.taskStart) u →
        wmLe (advanceWatermark w c.latestContent c.taskStart) u)
    ∧ wmLe (runCompletions w cs) (runCompletions w (cs ++ ds)) := by
  refine ⟨wmLe_advance _ _ _, wmLe_advance_content _ _ _, wmLe_advance_start _ _ _,
    fun u h1 h2 h3 => advance_least_ub _ _ _ u h1 h2 h3, ?_⟩
  have happ : runCompletions w (cs ++ ds) = runCompletions (runCompletions w cs) ds := by
    simp [runCompletions, List.foldl_append]
  rw [happ]
  exact wmLe_runCompletions (runCompletions w cs) ds

/-- Witness for C2: one completion over watermark 3, then an extension of a
one-completion history; the bound side conditions hold at 100. -/
theorem watermark_max_update_and_monotone_witness :
    wmLe (some 3) (advanceWatermark (some 3) (some 7) 5)
    ∧ wmLe (advanceWatermark (some 3) (some 7) 5) (some 100)
    ∧ wmLe (runCompletions (some 3) [⟨none, 2⟩])
        (runCompletions (some 3) ([⟨none, 2⟩] ++ [⟨some 1, 0⟩])) :=
  ⟨(watermark_max_update_and_monotone (some 3) ⟨some 7, 5⟩ [⟨none, 2⟩] [⟨some 1, 0⟩]).1,
   (watermark_max_update_and_monotone (some 3) ⟨some 7, 5⟩ [⟨none, 2⟩] [⟨some 1, 0⟩]).2.2.2.1
     (some 100) (by decide) (by decide) (by decide),
   (watermark_max_update_and_monotone (some 3) ⟨some 7, 5⟩ [⟨none, 2⟩] [⟨some 1, 0⟩]).2.2.2.2⟩

theorem put_preserves_key_bound (s : List Fragment) (f : Fragment)
    (h : ∀ p0 h0, keyCount s p0 h0 ≤ 1) (p0 h0 : Nat) :
    keyCount (put s f).2 p0 h0 ≤ 1 := by
  unfold put
  by_cases hany : s.any (fun g => g.hasKey f.personId f.contentHash) = true
  · simp only [hany, if_true]
    exact h p0 h0
  · rw [if_neg (by simp [hany])]
    simp only [keyCount, List.countP_cons]
    by_cases hm : f.hasKey p0 h0 = true
    · obtain ⟨rfl, rfl⟩ : f.personId = p0 ∧ f.contentHash = h0 := by
        simpa [Fragment.hasKey] using hm
      have hz : keyCount s f.personId f.contentHash = 0 := by
        rw [keyCount, List.countP_eq_zero]
        intro g hg
        have := List.any_eq_false.mp (by simpa using hany) g hg
        simpa using this
      rw [keyCount] at hz
      simp [hm, hz]
    · simp only [Bool.not_eq_true] at hm
      simp [hm]
      exact h p0 h0

theorem runPuts_key_bound (fs : List Fragment) (p0 h0 : Nat) :
    keyCount (runPuts fs) p0 h0 ≤ 1 := by
  suffices h : ∀ s, (∀ p1 h1, keyCount s p1 h1 ≤ 1) →
      ∀ p1 h1, keyCount (fs.foldl (fun s f => (put s f).2) s) p1 h1 ≤ 1 by
    exact h [] (fun _ _ => by simp [keyCount]) p0 h0
  induction fs with
  | nil => exact fun s hs => hs
  | cons f fs ih => exact fun s hs => ih ((put s f).2) (put_preserves_key_bound s f hs)

theorem put_key_present (s : List Fragment) (f : Fragment) :
    1 ≤ keyCount (put s f).2 f.personId f.contentHash := by
  unfold put
  by_cases hany : s.any (fun g => g.hasKey f.personId f.contentHash) = true
  · simp only [hany, if_true]
    obtain ⟨g, hg, hgk⟩ := List.any_eq_true.mp hany
    have : 0 < List.countP (fun g => g.hasKey f.personId f.contentHash) s :=
      List.countP_pos.mpr ⟨g, hg, hgk⟩
    rw [keyCount]
    omega
  · rw [if_neg (by simp [hany])]
    simp [keyCount, List.countP_cons, Fragment.hasKey]

/-- C3: putting the same `(person, content_hash)` key twice leaves exactly
one stored fragment for that key; the second call is a silent `Duplicate`
no-op (the store is returned unchanged) on any store whatsoever. -/
theorem knowledge_put_idempotent (s0 : List Fragment) (fs : List Fragment)
    (f : Fragment) :
    (put (put s0 f).2 f).1 = PutResult.Duplicate
    ∧ (put (put s0 f).2 f).2 = (put s0 f).2
    ∧ keyCount (put (runPuts fs) f).2 f.personId f.contentHash = 1 := by
  have hany : ∀ s : List Fragment,
      (put s f).2.any (fun g => g.hasKey f.personId f.contentHash) = true := by
    intro s
    have h1 := put_key_present s f
    rw [keyCount] at h1
    obtain ⟨g, hg, hgk⟩ := List.countP_pos.mp h1
    exact List.any_eq_true.mpr ⟨g, hg, hgk⟩
  have hdup : ∀ s1 : List Fragment,
      s1.any (fun g => g.hasKey f.personId f.contentHash) = true →
      put s1 f = (PutResult.Duplicate, s1) := by
    intro s1 h
    unfold put
    simp [h]
  refine ⟨?_, ?_, ?_⟩
  · rw [hdup ((put s0 f).2) (hany s0)]
  · rw [hdup ((put s0 f).2) (hany s0)]
  · have hle := put_preserves_key_bound (runPuts fs) f
      (runPuts_key_bound fs) f.personId f.contentHash
    have hge := put_key_present (runPuts fs) f
    omega

theorem cursorDescends_refl (a : Option Int) : cursorDescends a a :=
  fun x hx => ⟨x, hx, le_refl x⟩

theorem cursorAscends_refl (a : Option Int) : cursorAscends a a :=
  fun x hx => ⟨x, hx, le_refl x⟩

theorem cursorDescends_trans {a b c : Option Int}
    (h1 : cursorDescends a b) (h2 : cursorDescends b c) : cursorDescends a c := by
  intro x hx
  obtain ⟨y, hy, hyx⟩ := h1 x hx
  obtain ⟨z, hz, hzy⟩ := h2 y hy
  exact ⟨z, hz, le_trans hzy hyx⟩

theorem cursorAscends_trans {a b c : Option Int}
    (h1 : cursorAscends a b) (h2 : cursorAscends b c) : cursorAscends a c := by
  intro x hx
  obtain ⟨y, hy, hxy⟩ := h1 x hx
  obtain ⟨z, hz, hyz⟩ := h2 y hy
  exact ⟨z, hz, le_trans hxy hyz⟩

theorem commitPage_oldest (st : CrawlCursors) (pc : PageCommit) :
    cursorDescends st.oldestDate (commitPage st pc).oldestDate := by
  cases pc with
  | backfill d cur =>
    intro x hx
    simp [commitPage, hx]
  | incremental d cur => exact cursorDescends_refl st.oldestDate

theorem commitPage_newest (st : CrawlCursors) (pc : PageCommit) :
    cursorAscends st.newestDate (commitPage st pc).newestDate := by
  cases pc with
  | backfill d cur => exact cursorAscends_refl st.newestDate
  | incremental d cur =>
    intro x hx
    simp [commitPage, hx]

theorem runCommits_oldest (st : CrawlCursors) (qs : List PageCommit) :
    cursorDescends st.oldestDate (runCommits st qs).oldestDate := by
  induction qs generalizing st with
  | nil => exact cursorDescends_refl st.oldestDate
  | cons pc rest ih =>
    exact cursorDescends_trans (commitPage_oldest st pc) (ih (commitPage st pc))

theorem runCommits_newest (st : CrawlCursors) (qs : List PageCommit) :
    cursorAscends st.newestDate (runCommits st qs).newestDate := by
  induction qs generalizing st with
  | nil => exact cursorAscends_refl st.newestDate
  | cons pc rest ih =>
    exact cursorAscends_trans (commitPage_newest st pc) (ih (commitPage st pc))

/-- C5: across any sequence of successful page commits, the backfill cursor
`oldest_date` is monotonically non-increasing and the incremental cursor
`newest_date` is monotonically non-decreasing. -/
theorem crawl_cursors_monotone (st : CrawlCursors) (ps qs : List PageCommit) :
    cursorDescends (runCommits st ps).oldestDate (runCommits st (ps ++ qs)).oldestDate
    ∧ cursorAscends (runCommits st ps).newestDate (runCommits st (ps ++ qs)).newestDate := by
  have happ : runCommits st (ps ++ qs) = runCommits (runCommits st ps) qs := by
    simp [runCommits, List.foldl_append]
  rw [happ]
  exact ⟨runCommits_oldest (runCommits st ps) qs, runCommits_newest (runCommits st ps) qs⟩

/-- Witness for C5: a concrete crawl history; after one backfill page to day
5, two further commits keep the oldest cursor at or below 5 and the newest
cursor at or above 0. -/
theorem crawl_cursors_monotone_witness :
    (∃ y, (runCommits ⟨some 10, some 0, 0⟩
        ([PageCommit.backfill 5 1] ++ [PageCommit.backfill 7 2, PageCommit.incremental 4 3])).oldestDate
      = some y ∧ y ≤ 5)
    ∧ (∃ y, (runCommits ⟨some 10, some 0, 0⟩
        ([PageCommit.backfill 5 1] ++ [PageCommit.backfill 7 2, PageCommit.incremental 4 3])).newestDate
      = some y ∧ 0 ≤ y) :=
  ⟨(crawl_cursors_monotone ⟨some 10, some 0, 0⟩ [PageCommit.backfill 5 1]
      [PageCommit.backfill 7 2, PageCommit.incremental 4 3]).1 5 (by decide),
   (crawl_cursors_monotone ⟨some 10, some 0, 0⟩ [PageCommit.backfill 5 1]
      [PageCommit.backfill 7 2, PageCommit.incremental 4 3]).2 0 (by decide)⟩

/-- C6: starting from any status allowed by the `data_source_state` CHECK
constraint, every sequence of crawl-state-manager transitions — including
the one taken when incremental mode reaches "now" — stays within
{active, paused, completed}. -/
theorem crawl_status_stays_allowed (s : String) (es : List StatusEvent)
    (h : allowedStatus s) : allowedStatus (runStatus s es) := by
  induction es generalizing s with
  | nil => exact h
  | cons e rest ih =>
    have hstep : allowedStatus (nextStatus s e) := by
      cases e <;> simp [nextStatus, allowedStatus]
    exact ih (nextStatus s e) hstep

/-- Witness for C6 from the schema's initial status 'active'. -/
theorem crawl_status_stays_allowed_witness :
    allowedStatus (runStatus "active"
      [StatusEvent.operatorPause, StatusEvent.operatorResume,
       StatusEvent.incrementalReachedNow, StatusEvent.backfillExhausted]) :=
  crawl_status_stays_allowed "active"
    [StatusEvent.operatorPause, StatusEvent.operatorResume,
     StatusEvent.incrementalReachedNow, StatusEvent.backfillExhausted]
    (Or.inl rfl)

/-- C7 counterexample: with 5 total votes and no other signals the score is
1/2 — not an integer; and the min-score selection drops the zero-score
person from enrichment entirely while keeping the high-score one, so the
score gates whether enrichment work happens at all. -/
theorem importance_score_counterexample :
    importance_score ⟨0, 5, 0, false, false⟩ = 1 / 2
    ∧ (¬ ∃ n : ℤ, importance_score ⟨0, 5, 0, false, false⟩ = (n : ℚ))
    ∧ minScoreSelect 50
        [⟨0, none, ⟨0, 0, 0, false, false⟩⟩, ⟨1, none, ⟨10, 0, 0, false, false⟩⟩]
      = [⟨1, none, ⟨10, 0, 0, false, false⟩⟩] := by
  have hval : importance_score ⟨0, 5, 0, false, false⟩ = 1 / 2 := by
    norm_num [importance_score]
  refine ⟨hval, ?_, ?_⟩
  · rintro ⟨n, hn⟩
    rw [hval] at hn
    have h2 : (1 : ℚ) = 2 * (n : ℚ) := by linarith
    have h3 : (1 : ℤ) = 2 * n := by exact_mod_cast h2
    omega
  · norm_num [minScoreSelect, scoreOf, importance_score, List.filter_cons, List.filter_nil]

/-- C7 amended: the importance scorer is a deterministic pure function of a
person's aggregated signals producing a rational (not integer) score, and
the score both orders work and gates it: the min-score selection keeps
exactly the persons whose score reaches the threshold. -/
theorem importance_score_pure_function (a b : PersonRecord)
    (h : a.signals = b.signals) (minScore : ℚ) (ps : List PersonRecord)
    (p : PersonRecord) :
    scoreOf a = scoreOf b
    ∧ (p ∈ minScoreSelect minScore ps ↔ p ∈ ps ∧ minScore ≤ scoreOf p) := by
  constructor
  · unfold scoreOf
    rw [h]
  · unfold minScoreSelect
    simp [List.mem_filter]

/-- Witness for C7's amended claim: two records agreeing on signals but not
on payload score equally; membership in a one-element selection. -/
theorem importance_score_pure_function_witness :
    scoreOf ⟨0, none, ⟨1, 2, 3, true, false⟩⟩ = scoreOf ⟨5, some 9, ⟨1, 2, 3, true, false⟩⟩
    ∧ (⟨0, none, ⟨1, 2, 3, true, false⟩⟩ ∈ minScoreSelect 0 [⟨0, none, ⟨1, 2, 3, true, false⟩⟩]
        ↔ (⟨0, none, ⟨1, 2, 3, true, false⟩⟩ : PersonRecord) ∈ [(⟨0, none, ⟨1, 2, 3, true, false⟩⟩ : PersonRecord)]
          ∧ 0 ≤ scoreOf ⟨0, none, ⟨1, 2, 3, true, false⟩⟩) :=
  importance_score_pure_function ⟨0, none, ⟨1, 2, 3, true, false⟩⟩
    ⟨5, some 9, ⟨1, 2, 3, true, false⟩⟩ rfl 0
    [⟨0, none, ⟨1, 2, 3, true, false⟩⟩] ⟨0, none, ⟨1, 2, 3, true, false⟩⟩

theorem activeCount_set_le (q : List Task) (i : Nat) (t tNew : Task)
    (hget : q.get? i = some t)
    (himp : ∀ p c, tNew.activeFor p c = true → t.activeFor p c = true)
    (p c : Nat) :
    activeCount (q.set i tNew) p c ≤ activeCount q p c := by
  induction q generalizing i with
  | nil => simp [activeCount]
  | cons hd tl ih =>
    cases i with
    | zero =>
      obtain rfl : hd = t := by simpa using hget
      simp only [List.set_cons_zero, activeCount, List.countP_cons]
      by_cases hm : tNew.activeFor p c = true
      · have hh := himp p c hm
        simp [hm, hh]
      · simp only [Bool.not_eq_true] at hm
        simp only [hm, Bool.false_eq_true, if_false]
        omega
    | succ n =>
      simp only [List.set_cons_succ, activeCount, List.countP_cons]
      have hrec := ih n (by simpa using hget)
      rw [activeCount, activeCount] at hrec
      omega

theorem enqueue_preserves (q : List Task) (p0 c0 : Nat) (prio : Int)
    (hInv : ∀ p c, activeCount q p c ≤ 1) (p c : Nat) :
    activeCount (enqueue q p0 c0 prio) p c ≤ 1 := by
  unfold enqueue
  by_cases hany : q.any (fun t => t.activeFor p0 c0) = true
  · simp only [hany, if_true]
    exact hInv p c
  · rw [if_neg (by simp [hany])]
    by_cases hm : Task.activeFor ⟨p0, c0, TaskStatus.pending, 0, prio⟩ p c = true
    · obtain ⟨rfl, rfl⟩ : p0 = p ∧ c0 = c := by
        simpa [Task.activeFor, Task.isActive] using hm
      have hz : List.countP (fun t => t.activeFor p0 c0) q = 0 := by
        rw [List.countP_eq_zero]
        intro t ht
        have hfalse := List.any_eq_false.mp (by simpa using hany) t ht
        simpa using hfalse
      simp [activeCount, List.countP_cons, hm, hz]
    · simp only [Bool.not_eq_true] at hm
      have h1 := hInv p c
      rw [activeCount] at h1
      simp only [activeCount, List.countP_cons, hm, Bool.false_eq_true, if_false]
      omega

theorem claimAt_preserves (q : List Task) (i : Nat)
    (hInv : ∀ p c, activeCount q p c ≤ 1) (p c : Nat) :
    activeCount (claimAt q i) p c ≤ 1 := by
  cases hget : q.get? i with
  | none =>
    have hcl : claimAt q i = q := by
      unfold claimAt
      rw [hget]
    rw [hcl]
    exact hInv p c
  | some t =>
    have hcl : claimAt q i =
        if t.status = TaskStatus.pending
        then q.set i { t with status := TaskStatus.processing } else q := by
      unfold claimAt
      rw [hget]
    rw [hcl]
    by_cases hst : t.status = TaskStatus.pending
    · rw [if_pos hst]
      refine le_trans (activeCount_set_le q i t _ hget ?_ p c) (hInv p c)
      intro p1 c1 h1
      simp only [Task.activeFor, Task.isActive, hst, Bool.and_eq_true,
        decide_eq_true_eq] at h1 ⊢
      exact h1
    · rw [if_neg hst]
      exact hInv p c

theorem completeAt_preserves (q : List Task) (i : Nat)
    (hInv : ∀ p c, activeCount q p c ≤ 1) (p c : Nat) :
    activeCount (completeAt q i) p c ≤ 1 := by
  cases hget : q.get? i with
  | none =>
    have hcl : completeAt q i = q := by
      unfold completeAt
      rw [hget]
    rw [hcl]
    exact hInv p c
  | some t =>
    have hcl : completeAt q i =
        if t.status = TaskStatus.processing
        then q.set i { t with status := TaskStatus.completed } else q := by
      unfold completeAt
      rw [hget]
    rw [hcl]
    by_cases hst : t.status = TaskStatus.processing
    · rw [if_pos hst]
      refine le_trans (activeCount_set_le q i t _ hget ?_ p c) (hInv p c)
      intro p1 c1 h1
      simp [Task.activeFor, Task.isActive] at h1
    · rw [if_neg hst]
      exact hInv p c

theorem failAt_preserves (q : List Task) (i : Nat) (ceiling : Nat)
    (hInv : ∀ p c, activeCount q p c ≤ 1) (p c : Nat) :
    activeCount (failAt q i ceiling) p c ≤ 1 := by
  cases hget : q.get? i with
  | none =>
    have hcl : failAt q i ceiling = q := by
      unfold failAt
      rw [hget]
    rw [hcl]
    exact hInv p c
  | some t =>
    have hcl : failAt q i ceiling =
        if t.status = TaskStatus.processing
        then q.set i { t with
          attempts := t.attempts + 1,
          status := (if t.attempts + 1 < ceiling then TaskStatus.pending else TaskStatus.failed) }
        else q := by
      unfold failAt
      rw [hget]
    rw [hcl]
    by_cases hst : t.status = TaskStatus.processing
    · rw [if_pos hst]
      refine le_trans (activeCount_set_le q i t _ hget ?_ p c) (hInv p c)
      intro p1 c1 h1
      by_cases hceil : t.attempts + 1 < ceiling
      · simp only [hceil, if_true, Task.activeFor, Task.isActive, hst,
          Bool.and_eq_true, decide_eq_true_eq] at h1 ⊢
        exact h1
      · simp only [hceil, if_false, Task.activeFor, Task.isActive,
          Bool.and_eq_true, decide_eq_true_eq] at h1
        exact absurd h1.2 (by simp)
    · rw [if_neg hst]
      exact hInv p c

theorem applyOp_preserves (q : List Task) (op : QueueOp)
    (hInv : ∀ p c, activeCount q p c ≤ 1) (p c : Nat) :
    activeCount (applyOp q op) p c ≤ 1 := by
  cases op with
  | enq p0 c0 prio => exact enqueue_preserves q p0 c0 prio hInv p c
  | claim i => exact claimAt_preserves q i hInv p c
  | complete i => exact completeAt_preserves q i hInv p c
  | fail i ceiling => exact failAt_preserves q i ceiling hInv p c

/-- C1: in every queue state reachable from the empty queue by any sequence
of enqueue / claim / complete / fail operations, at most one
`enrichment_queue` row per (person, channel) pair has status pending or
processing; in particular enqueue (the `DuplicateActiveTask` no-op rule)
preserves the invariant. -/
theorem enrichment_queue_at_most_one_active (ops : List QueueOp) (p c : Nat) :
    activeCount (runQueue ops) p c ≤ 1 := by
  suffices h : ∀ q, (∀ p0 c0, activeCount q p0 c0 ≤ 1) →
      ∀ p0 c0, activeCount (ops.foldl applyOp q) p0 c0 ≤ 1 by
    exact h [] (fun _ _ => by simp [activeCount]) p c
  induction ops with
  | nil => exact fun q hq => hq
  | cons op rest ih =>
    exact fun q hq => ih (applyOp q op) (applyOp_preserves q op hq)

theorem get?_set_ne {α : Type} (l : List α) (i j : Nat) (a : α) (h : i ≠ j) :
    (l.set i a).get? j = l.get? j := by
  induction l generalizing i j with
  | nil => simp
  | cons hd tl ih =>
    cases i with
    | zero =>
      cases j with
      | zero => exact absurd rfl h
      | succ m => simp [List.set_cons_zero]
    | succ n =>
      cases j with
      | zero => simp [List.set_cons_succ]
      | succ m =>
        simp only [List.set_cons_succ, List.get?_cons_succ]
        exact ih n m (by omega)

theorem get?_set_self {α : Type} (l : List α) (i : Nat) (a : α) {t : α}
    (h : (l.set i a).get? i = some t) : t = a := by
  induction l generalizing i with
  | nil => simp at h
  | cons hd tl ih =>
    cases i with
    | zero =>
      simp only [List.set_cons_zero, List.get?_cons_zero] at h
      exact (Option.some.inj h).symm
    | succ n =>
      simp only [List.set_cons_succ, List.get?_cons_succ] at h
      exact ih n h

theorem get?_append_one {α : Type} {s : List α} {c : α} {i : Nat} {t : α}
    (h : (s ++ [c]).get? i = some t) :
    s.get? i = some t ∨ (i = s.length ∧ t = c) := by
  induction s generalizing i with
  | nil =>
    cases i with
    | zero =>
      simp only [List.nil_append, List.get?_cons_zero] at h
      exact Or.inr ⟨rfl, (Option.some.inj h).symm⟩
    | succ n => simp at h
  | cons hd tl ih =>
    cases i with
    | zero =>
      simp only [List.cons_append, List.get?_cons_zero] at h
      exact Or.inl h
    | succ n =>
      simp only [List.cons_append, List.get?_cons_succ] at h ⊢
      rcases ih h with h1 | ⟨h2, h3⟩
      · exact Or.inl h1
      · exact Or.inr ⟨by simp [h2], h3⟩

theorem keyMatch_symm (a b : Option Nat) : keyMatch a b = keyMatch b a := by
  cases a <;> cases b <;> simp only [keyMatch]
  rw [decide_eq_decide]
  exact eq_comm

theorem sharesKey_symm (a b : Person) : sharesKey a b = sharesKey b a := by
  unfold sharesKey
  rw [keyMatch_symm a.ph_id, keyMatch_symm a.twitter, keyMatch_symm a.linkedin,
    keyMatch_symm a.github]

theorem findIdxOpt_none {f : Person → Bool} {l : List Person}
    (h : findIdxOpt f l = none) : ∀ p ∈ l, f p = false := by
  induction l with
  | nil =>
    intro p hp
    cases hp
  | cons hd tl ih =>
    intro p hp
    unfold findIdxOpt at h
    by_cases hf : f hd = true
    · rw [if_pos hf] at h
      cases h
    · rw [if_neg hf] at h
      rcases List.mem_cons.mp hp with rfl | hp2
      · simpa using hf
      · exact ih (by simpa using h) p hp2

theorem findIdxOpt_some {f : Person → Bool} {l : List Person} {i : Nat}
    (h : findIdxOpt f l = some i) : ∃ t, l.get? i = some t ∧ f t = true := by
  induction l generalizing i with
  | nil => cases h
  | cons hd tl ih =>
    unfold findIdxOpt at h
    by_cases hf : f hd = true
    · rw [if_pos hf] at h
      injection h with h0
      subst h0
      exact ⟨hd, rfl, hf⟩
    · rw [if_neg hf] at h
      obtain ⟨j, hj, rfl⟩ := Option.map_eq_some'.mp h
      obtain ⟨t, ht, hft⟩ := ih hj
      exact ⟨t, by simpa using ht, hft⟩

theorem findMatch_none {c : Person} {s : List Person} (h : findMatch c s = none) :
    ∀ p ∈ s, sharesKey c p = false := by
  unfold findMatch at h
  intro p hp
  split at h
  next i heq => exact absurd h (by simp)
  next heq1 =>
    split at h
    next i heq => exact absurd h (by simp)
    next heq2 =>
      split at h
      next i heq => exact absurd h (by simp)
      next heq3 =>
        have k1 := findIdxOpt_none heq1 p hp
        have k2 := findIdxOpt_none heq2 p hp
        have k3 := findIdxOpt_none heq3 p hp
        have k4 := findIdxOpt_none h p hp
        simp [sharesKey, k1, k2, k3, k4]

theorem findMatch_some {c : Person} {s : List Person} {i : Nat}
    (h : findMatch c s = some i) :
    ∃ t, s.get? i = some t ∧ sharesKey c t = true := by
  unfold findMatch at h
  split at h
  next j heq =>
    injection h with h0
    subst h0
    obtain ⟨t, ht, hft⟩ := findIdxOpt_some heq
    exact ⟨t, ht, by simp [sharesKey, hft]⟩
  next heq1 =>
    split at h
    next j heq =>
      injection h with h0
      subst h0
      obtain ⟨t, ht, hft⟩ := findIdxOpt_some heq
      exact ⟨t, ht, by simp [sharesKey, hft]⟩
    next heq2 =>
      split at h
      next j heq =>
        injection h with h0
        subst h0
        obtain ⟨t, ht, hft⟩ := findIdxOpt_some heq
        exact ⟨t, ht, by simp [sharesKey, hft]⟩
      next heq3 =>
        obtain ⟨t, ht, hft⟩ := findIdxOpt_some h
        exact ⟨t, ht, by simp [sharesKey, hft]⟩

theorem uniq_iff_get (s : List Person) :
    Uniq s ↔ ∀ i j t u, i ≠ j → s.get? i = some t → s.get? j = some u →
      sharesKey t u = false := by
  induction s with
  | nil =>
    constructor
    · intro _ i j t u _ hti _
      simp at hti
    · intro _
      rfl
  | cons hd tl ih =>
    constructor
    · intro h i j t u hij hti huj
      have hparts : (tl.all (fun q => !(sharesKey hd q)) = true)
          ∧ pairwiseNoShare tl = true := by
        simpa [Uniq, pairwiseNoShare, Bool.and_eq_true] using h
      have hall : ∀ q ∈ tl, sharesKey hd q = false := by
        intro q hq
        have := List.all_eq_true.mp hparts.1 q hq
        simpa using this
      have htl : Uniq tl := hparts.2
      cases i with
      | zero =>
        cases j with
        | zero => exact absurd rfl hij
        | succ m =>
          simp only [List.get?_cons_zero] at hti
          simp only [List.get?_cons_succ] at huj
          obtain rfl : hd = t := Option.some.inj hti
          exact hall u (List.get?_mem huj)
      | succ n =>
        cases j with
        | zero =>
          simp only [List.get?_cons_succ] at hti
          simp only [List.get?_cons_zero] at huj
          obtain rfl : hd = u := Option.some.inj huj
          rw [sharesKey_symm]
          exact hall t (List.get?_mem hti)
        | succ m =>
          simp only [List.get?_cons_succ] at hti huj
          exact (ih.mp htl) n m t u (by omega) hti huj
    · intro h
      rw [Uniq, pairwiseNoShare, Bool.and_eq_true]
      constructor
      · rw [List.all_eq_true]
        intro q hq
        obtain ⟨k, hk⟩ := List.mem_iff_get?.mp hq
        have := h 0 (k + 1) hd q (by omega) (by simp) (by simpa using hk)
        simpa using this
      · refine ih.mpr ?_
        intro i j t u hij hti huj
        exact h (i + 1) (j + 1) t u (by omega) (by simpa using hti) (by simpa using huj)

theorem keyMatch_orElse_false (cf pf uf : Option Nat)
    (h1 : keyMatch cf uf = false) (h2 : keyMatch pf uf = false) :
    keyMatch (cf.orElse fun _ => pf) uf = false := by
  cases cf <;> simp_all [Option.orElse]

theorem merge_no_share (c pMatch u : Person)
    (h1 : sharesKey c u = false) (h2 : sharesKey pMatch u = false) :
    sharesKey (mergeInto pMatch c) u = false := by
  simp only [sharesKey, mergeInto, Bool.or_eq_false_iff] at h1 h2 ⊢
  exact ⟨⟨⟨keyMatch_orElse_false _ _ _ h1.1.1.1 h2.1.1.1,
    keyMatch_orElse_false _ _ _ h1.1.1.2 h2.1.1.2⟩,
    keyMatch_orElse_false _ _ _ h1.1.2 h2.1.2⟩,
    keyMatch_orElse_false _ _ _ h1.2 h2.2⟩

/-- C4 counterexample: resolving three candidates in order — a person known
only by twitter key 10, a person with platform id 1 and twitter 20, then a
candidate carrying platform id 1 and twitter 10 — matches the candidate to
the second row by platform-id priority and merges twitter 10 into it, after
which two distinct rows hold the same non-null twitter key 10: resolution
does not enforce identity-key uniqueness. -/
theorem resolve_uniqueness_counterexample :
    resolve ⟨2, some 1, some 10, none, none⟩
        (resolve ⟨1, some 1, some 20, none, none⟩
          (resolve ⟨0, none, some 10, none, none⟩ []))
      = [⟨0, none, some 10, none, none⟩, ⟨2, some 1, some 10, none, none⟩]
    ∧ ¬ Uniq [⟨0, none, some 10, none, none⟩, ⟨2, some 1, some 10, none, none⟩] := by
  refine ⟨by decide, by decide⟩

/-- C4 amended: resolve preserves identity-key uniqueness on every state
whose records already satisfy it, provided the candidate's non-null identity
keys match at most one stored person; creation needs no proviso, and the
counterexample shows the proviso cannot be dropped for merges. -/
theorem resolve_preserves_uniq (c : Person) (s : List Person)
    (hU : Uniq s)
    (hOne : ∀ i j : Fin s.length, sharesKey c (s.get i) = true →
      sharesKey c (s.get j) = true → i = j) :
    Uniq (resolve c s) := by
  have hUg := (uniq_iff_get s).mp hU
  have hOne2 : ∀ i j t u, s.get? i = some t → s.get? j = some u →
      sharesKey c t = true → sharesKey c u = true → i = j := by
    intro i j t u hti huj hct hcu
    obtain ⟨hi, hgi⟩ := List.get?_eq_some.mp hti
    obtain ⟨hj, hgj⟩ := List.get?_eq_some.mp huj
    have hfin := hOne ⟨i, hi⟩ ⟨j, hj⟩ (by rwa [hgi]) (by rwa [hgj])
    exact congrArg Fin.val hfin
  cases hm : findMatch c s with
  | none =>
    have hnone := findMatch_none hm
    have hre : resolve c s = s ++ [c] := by
      unfold resolve
      rw [hm]
    rw [hre, uniq_iff_get]
    intro i j t u hij hti huj
    rcases get?_append_one hti with hti2 | ⟨hieq, rfl⟩
    · rcases get?_append_one huj with huj2 | ⟨hjeq, rfl⟩
      · exact hUg i j t u hij hti2 huj2
      · rw [sharesKey_symm]
        exact hnone t (List.get?_mem hti2)
    · rcases get?_append_one huj with huj2 | ⟨hjeq, rfl⟩
      · exact hnone u (List.get?_mem huj2)
      · exact absurd (hieq.trans hjeq.symm) hij
  | some idx =>
    obtain ⟨pM, hgIdx, hshare⟩ := findMatch_some hm
    have hre : resolve c s = s.set idx (mergeInto pM c) := by
      unfold resolve
      rw [hm]
      simp only [hgIdx]
    rw [hre, uniq_iff_get]
    intro i j t u hij hti huj
    have hcfalse : ∀ k w, k ≠ idx → s.get? k = some w → sharesKey c w = false := by
      intro k w hk hkw
      cases hcw : sharesKey c w with
      | false => rfl
      | true => exact absurd (hOne2 k idx w pM hkw hgIdx hcw hshare) hk
    by_cases hi : i = idx
    · subst hi
      obtain rfl : t = mergeInto pM c := get?_set_self s i (mergeInto pM c) hti
      have hsj : s.get? j = some u := by
        rw [get?_set_ne s i j _ (fun hh => hij hh)] at huj
        exact huj
      exact merge_no_share c pM u (hcfalse j u (fun hh => hij hh.symm) hsj)
        (hUg i j pM u hij hgIdx hsj)
    · have hsi : s.get? i = some t := by
        rw [get?_set_ne s idx i _ (fun hh => hi hh.symm)] at hti
        exact hti
      by_cases hj : j = idx
      · subst hj
        obtain rfl : u = mergeInto pM c := get?_set_self s j (mergeInto pM c) huj
        rw [sharesKey_symm]
        exact merge_no_share c pM t (hcfalse i t hi hsi) (hUg j i pM t
          (fun hh => hij hh.symm) hgIdx hsi)
      · have hsj : s.get? j = some u := by
          rw [get?_set_ne s idx j _ (fun hh => hj hh.symm)] at huj
          exact huj
        exact hUg i j t u hij hsi hsj

/-- Witness for C4's amended claim: a two-row store where the candidate's
only matching key is the first row's platform id. -/
theorem resolve_preserves_uniq_witness :
    Uniq (resolve ⟨2, some 1, some 9, none, none⟩
      [⟨0, some 1, none, none, none⟩, ⟨1, none, some 5, none, none⟩]) :=
  resolve_preserves_uniq ⟨2, some 1, some 9, none, none⟩
    [⟨0, some 1, none, none, none⟩, ⟨1, none, some 5, none, none⟩]
    (by decide) (by decide)
